import Mathlib

/-!
Verification of the `fastmath` library (sign module, log2 module, Lehmer64
generator, integer capability constants).

Machine integers of width `w` are embedded as their bit patterns: natural
numbers strictly below `2 ^ w`.  Signed values are read off a pattern through
the two's-complement interpretation `toInt`, and written back with `toBits`.
All wrapping arithmetic of the source is `% 2 ^ w` on patterns.
-/

namespace Fastmath

/-- Two's-complement interpretation of a `w`-bit pattern as a signed integer. -/
def toInt (w p : Nat) : Int :=
  if p < 2 ^ (w - 1) then (p : Int) else (p : Int) - 2 ^ w

/-- The `w`-bit two's-complement pattern of an integer value. -/
def toBits (w : Nat) (x : Int) : Nat := (x % ((2 ^ w : Nat) : Int)).toNat

/-- Rust `rotate_right` on a `w`-bit pattern: the bits are rotated right by
`n` modulo `w` positions. -/
def rotateRight (w x n : Nat) : Nat :=
  ((x >>> (n % w)) ||| (x <<< (w - n % w))) % 2 ^ w

/-- Rust `rotate_left` on a `w`-bit pattern: the bits are rotated left by
`n` modulo `w` positions. -/
def rotateLeft (w x n : Nat) : Nat :=
  ((x <<< (n % w)) ||| (x >>> (w - n % w))) % 2 ^ w

/-- `generic_sign_function` from `src/sign.rs` on the `w`-bit pattern `p`:
`1 - (x & MSB_MASK).rotate_right(BITS - 2)` where `MSB_MASK = 1 << (BITS - 1)`.
The signed subtraction `1 - r` is performed on patterns as
`(2 ^ w + 1 - r) % 2 ^ w`. -/
def int_sign (w p : Nat) : Nat :=
  (2 ^ w + 1 - rotateRight w (p &&& 2 ^ (w - 1)) (w - 2)) % 2 ^ w

/-- `generic_sign_comparison_functions` from `src/sign.rs`: `(x ^ y) < 0`
evaluated on patterns through the signed interpretation. -/
def int_opposite_sign (w px py : Nat) : Bool :=
  decide (toInt w (px ^^^ py) < 0)

/-- `generic_sign_comparison_functions` from `src/sign.rs`:
`!int_opposite_sign(x, y)`. -/
def int_same_sign (w px py : Nat) : Bool :=
  ! int_opposite_sign w px py

/-! ### Basic facts about the embedding -/

theorem toInt_neg_iff {w p : Nat} (hp : p < 2 ^ w) :
    toInt w p < 0 ↔ 2 ^ (w - 1) ≤ p := by
  unfold toInt
  split
  · constructor
    · intro h
      exact absurd (Int.ofNat_nonneg p) (not_le.mpr h)
    · intro h
      omega
  · constructor
    · intro _
      omega
    · intro _
      have : (p : Int) < ((2 ^ w : Nat) : Int) := by exact_mod_cast hp
      push_cast at this
      omega

theorem testBit_msb {w p : Nat} (hw : 1 ≤ w) (hp : p < 2 ^ w) :
    p.testBit (w - 1) = decide (2 ^ (w - 1) ≤ p) := by
  rw [Nat.testBit_to_div_mod]
  have hpow : 2 ^ (w - 1) * 2 = 2 ^ w := by
    rw [← pow_succ]
    congr 1
    omega
  have hdivlt : p / 2 ^ (w - 1) < 2 :=
    Nat.div_lt_of_lt_mul (by omega)
  by_cases h : 2 ^ (w - 1) ≤ p
  · have h1 : 1 ≤ p / 2 ^ (w - 1) :=
      (Nat.one_le_div_iff (Nat.pos_pow_of_pos _ (by omega))).mpr h
    have : p / 2 ^ (w - 1) = 1 := by omega
    simp [this, h]
  · have h0 : p / 2 ^ (w - 1) = 0 :=
      Nat.div_eq_of_lt (by omega)
    simp [h0, h]

theorem and_msb {w p : Nat} (hw : 1 ≤ w) (hp : p < 2 ^ w) :
    p &&& 2 ^ (w - 1) = if 2 ^ (w - 1) ≤ p then 2 ^ (w - 1) else 0 := by
  apply Nat.eq_of_testBit_eq
  intro i
  rw [Nat.testBit_and]
  by_cases h : 2 ^ (w - 1) ≤ p
  · simp only [if_pos h]
    by_cases hi : i = w - 1
    · subst hi
      rw [testBit_msb hw hp]
      simp [h]
    · rw [Nat.testBit_two_pow_of_ne (fun he => hi he.symm)]
      simp
  · simp only [if_neg h]
    by_cases hi : i = w - 1
    · subst hi
      rw [testBit_msb hw hp]
      simp [h]
    · rw [Nat.testBit_two_pow_of_ne (fun he => hi he.symm)]
      simp

theorem rotateRight_zero_left (w n : Nat) : rotateRight w 0 n = 0 := by
  simp [rotateRight]

theorem rotateRight_msb {w : Nat} (hw : 2 ≤ w) :
    rotateRight w (2 ^ (w - 1)) (w - 2) = 2 := by
  unfold rotateRight
  have hm : (w - 2) % w = w - 2 := Nat.mod_eq_of_lt (by omega)
  rw [hm]
  have h1 : (2 ^ (w - 1)) >>> (w - 2) = 2 := by
    rw [Nat.shiftRight_eq_div_pow, Nat.pow_div (by omega) (by omega)]
    have : w - 1 - (w - 2) = 1 := by omega
    rw [this, pow_one]
  have h2 : w - (w - 2) = 2 := by omega
  have h3 : (2 ^ (w - 1)) <<< 2 = 2 ^ (w + 1) * 1 := by
    rw [Nat.shiftLeft_eq, ← pow_add, mul_one]
    congr 1
    omega
  rw [h1, h2, h3, Nat.or_comm, ← Nat.mul_add_lt_is_or (by
    calc (2 : Nat) < 2 ^ 2 := by omega
    _ ≤ 2 ^ (w + 1) := Nat.pow_le_pow_right (by omega) (by omega))]
  have h4 : 2 ^ (w + 1) * 1 + 2 = 2 ^ w * 2 + 2 := by
    rw [mul_one, pow_succ]
  rw [h4, Nat.mul_add_mod]
  exact Nat.mod_eq_of_lt (by
    calc (2 : Nat) < 2 ^ 2 := by omega
    _ ≤ 2 ^ w := Nat.pow_le_pow_right (by omega) hw)

/-- C1: for every signed width `w ≥ 2` and every representable value (pattern
`p < 2 ^ w`), `int_sign` returns the pattern `1` exactly when the value is
non-negative (zero included) and the all-ones pattern `2 ^ w - 1`, reading as
`-1`, exactly when the value is negative. -/
theorem int_sign_correct (w p : Nat) (hw : 2 ≤ w) (hp : p < 2 ^ w) :
    int_sign w p = (if 0 ≤ toInt w p then 1 else 2 ^ w - 1) ∧
    toInt w (int_sign w p) = (if 0 ≤ toInt w p then 1 else -1) := by
  have hw1 : 1 ≤ w := by omega
  have h4 : 4 ≤ 2 ^ w := by
    calc (4 : Nat) = 2 ^ 2 := by omega
    _ ≤ 2 ^ w := Nat.pow_le_pow_right (by omega) hw
  have hlt : 1 < 2 ^ (w - 1) := by
    have : 2 ^ 1 ≤ 2 ^ (w - 1) := Nat.pow_le_pow_right (by omega) (by omega)
    omega
  rw [int_sign, and_msb hw1 hp]
  by_cases h : 2 ^ (w - 1) ≤ p
  · have hneg : toInt w p < 0 := (toInt_neg_iff hp).mpr h
    simp only [if_pos h, if_neg (not_le.mpr hneg), rotateRight_msb hw]
    have he : (2 ^ w + 1 - 2) % 2 ^ w = 2 ^ w - 1 := by
      have h5 : 2 ^ w + 1 - 2 = 2 ^ w - 1 := by omega
      rw [h5, Nat.mod_eq_of_lt (by omega)]
    rw [he]
    refine ⟨rfl, ?_⟩
    rw [toInt, if_neg (by omega)]
    have h1 : (1 : Nat) ≤ 2 ^ w := by omega
    rw [Nat.cast_sub h1]
    push_cast
    ring
  · have hpos : ¬ toInt w p < 0 := fun hc => h ((toInt_neg_iff hp).mp hc)
    simp only [if_neg h, if_pos (not_lt.mp hpos), rotateRight_zero_left]
    have he : (2 ^ w + 1 - 0) % 2 ^ w = 1 := by
      rw [Nat.sub_zero, Nat.add_mod_left, Nat.mod_eq_of_lt (by omega)]
    rw [he]
    refine ⟨rfl, ?_⟩
    rw [toInt, if_pos hlt]
    norm_num

/-- C7: for every signed width `w ≥ 1` and all representable values,
`int_opposite_sign` is true exactly when one and only one of the two values is
negative (zero counting as positive), and `int_same_sign` is its negation. -/
theorem sign_comparison_correct (w px py : Nat) (hw : 1 ≤ w)
    (hpx : px < 2 ^ w) (hpy : py < 2 ^ w) :
    (int_opposite_sign w px py = true ↔ Xor' (toInt w px < 0) (toInt w py < 0)) ∧
    int_same_sign w px py = ! int_opposite_sign w px py := by
  refine ⟨?_, rfl⟩
  unfold int_opposite_sign
  rw [decide_eq_true_iff]
  have hx : px ^^^ py < 2 ^ w := Nat.xor_lt_two_pow hpx hpy
  rw [toInt_neg_iff hx, toInt_neg_iff hpx, toInt_neg_iff hpy]
  have h1 : ((px ^^^ py).testBit (w - 1)) = decide (2 ^ (w - 1) ≤ px ^^^ py) :=
    testBit_msb hw hx
  rw [Nat.testBit_xor, testBit_msb hw hpx, testBit_msb hw hpy] at h1
  by_cases hx1 : 2 ^ (w - 1) ≤ px <;> by_cases hy1 : 2 ^ (w - 1) ≤ py <;>
    simp [hx1, hy1] at h1 <;> simp [Xor', hx1, hy1, h1]

/-! ### Log2 module, src/log.rs -/

/-- Rust `leading_zeros` of a `w`-bit value: the bit width minus the length of
the binary representation (`Nat.size`). -/
def leading_zeros (w x : Nat) : Nat := w - Nat.size x

/-- `generic_log2_floor` from `src/log.rs`:
`(BITS - x.leading_zeros()).wrapping_sub(1)` computed in `u32` arithmetic, so
the subtraction of `1` wraps modulo `2 ^ 32`. -/
def log2_floor (w x : Nat) : Nat :=
  (w - leading_zeros w x + (2 ^ 32 - 1)) % 2 ^ 32

theorem size_eq_log2_add_one {x : Nat} (hx : 0 < x) :
    Nat.size x = Nat.log2 x + 1 := by
  apply le_antisymm
  · rw [Nat.size_le, Nat.log2_eq_log_two]
    exact Nat.lt_pow_succ_log_self (by omega) x
  · have h : Nat.log2 x < Nat.size x := by
      rw [Nat.lt_size, Nat.log2_eq_log_two]
      exact Nat.pow_log_le_self 2 hx.ne'
    omega

theorem log2_two_pow (k : Nat) : Nat.log2 (2 ^ k) = k := by
  rw [Nat.log2_eq_log_two]
  exact Nat.log_pow (by omega) k

theorem log2_two_pow_sub_one {k : Nat} (hk : 0 < k) :
    Nat.log2 (2 ^ k - 1) = k - 1 := by
  rw [Nat.log2_eq_log_two]
  apply Nat.log_eq_of_pow_le_of_lt_pow
  · have h : (2 : Nat) ^ (k - 1) < 2 ^ k := Nat.pow_lt_pow_right (by omega) (by omega)
    omega
  · have h : k - 1 + 1 = k := by omega
    have hp : 0 < (2 : Nat) ^ k := Nat.pos_pow_of_pos _ (by omega)
    rw [h]
    omega

theorem log2_two_pow_add_one {k : Nat} (hk : 0 < k) :
    Nat.log2 (2 ^ k + 1) = k := by
  rw [Nat.log2_eq_log_two]
  apply Nat.log_eq_of_pow_le_of_lt_pow
  · omega
  · have h : (2 : Nat) ^ (k + 1) = 2 ^ k * 2 := by rw [pow_succ]
    have h2 : (2 : Nat) ^ 1 ≤ 2 ^ k := Nat.pow_le_pow_right (by omega) (by omega)
    omega

theorem log2_floor_exact {w x : Nat} (hx : 0 < x) (hw128 : w ≤ 128)
    (hxw : x < 2 ^ w) : log2_floor w x = Nat.log2 x := by
  unfold log2_floor leading_zeros
  have hs : Nat.size x ≤ w := Nat.size_le.mpr hxw
  have h1 : w - (w - Nat.size x) = Nat.size x := by omega
  rw [h1, size_eq_log2_add_one hx]
  have h2 : Nat.log2 x + 1 + (2 ^ 32 - 1) = Nat.log2 x + 2 ^ 32 := by
    have : (1 : Nat) ≤ 2 ^ 32 := by norm_num
    omega
  rw [h2, Nat.add_mod_right]
  apply Nat.mod_eq_of_lt
  have h3 : Nat.log2 x + 1 ≤ w := by
    rw [← size_eq_log2_add_one hx]
    exact hs
  calc Nat.log2 x < 129 := by omega
  _ < 2 ^ 32 := by norm_num

/-- C2: for every unsigned width `w ≤ 128`, `log2_floor` equals the
mathematical floor of log base 2 on all of `[1, 2 ^ w - 1]` — in particular at
the three critical points around every representable power of two, at `1` and
at `MAX` — while input `0` yields the wraparound sentinel `2 ^ 32 - 1`
(`u32::MAX`). -/
theorem log2_floor_correct (w : Nat) (hw : 0 < w) (hw128 : w ≤ 128) :
    (∀ x, 0 < x → x < 2 ^ w → log2_floor w x = Nat.log2 x) ∧
    log2_floor w 0 = 2 ^ 32 - 1 ∧
    (∀ k, 0 < k → k < w →
      log2_floor w (2 ^ k - 1) = k - 1 ∧
      log2_floor w (2 ^ k) = k ∧
      log2_floor w (2 ^ k + 1) = k) ∧
    log2_floor w 1 = 0 ∧
    log2_floor w (2 ^ w - 1) = w - 1 := by
  have hmono : ∀ a b : Nat, a < b → (2 : Nat) ^ a < 2 ^ b := fun a b h =>
    Nat.pow_lt_pow_right (by omega) h
  have hone : (1 : Nat) < 2 ^ w := by
    have := hmono 0 w hw
    omega
  refine ⟨fun x hx hxw => log2_floor_exact hx hw128 hxw, ?_, ?_, ?_, ?_⟩
  · unfold log2_floor leading_zeros
    rw [Nat.size_zero, Nat.sub_zero, Nat.sub_self, Nat.zero_add]
    apply Nat.mod_eq_of_lt
    norm_num
  · intro k hk hkw
    have hklt : (2 : Nat) ^ k < 2 ^ w := hmono k w hkw
    have hk1 : (2 : Nat) ^ 1 ≤ 2 ^ k := Nat.pow_le_pow_right (by omega) (by omega)
    have hsucc : (2 : Nat) ^ (k + 1) ≤ 2 ^ w := Nat.pow_le_pow_right (by omega) (by omega)
    have hs2 : (2 : Nat) ^ (k + 1) = 2 ^ k * 2 := by rw [pow_succ]
    refine ⟨?_, ?_, ?_⟩
    · rw [log2_floor_exact (by omega) hw128 (by omega), log2_two_pow_sub_one hk]
    · rw [log2_floor_exact (by omega) hw128 hklt, log2_two_pow]
    · rw [log2_floor_exact (by omega) hw128 (by omega), log2_two_pow_add_one hk]
  · rw [log2_floor_exact (by omega) hw128 hone]
    simpa using log2_two_pow 0
  · have hp : (2 : Nat) ^ (w - 1) < 2 ^ w := hmono (w - 1) w (by omega)
    rw [log2_floor_exact (by omega) hw128 (by omega), log2_two_pow_sub_one hw]

/-! ### Lehmer64 generator, src/rng.rs

The state is a `u128` pattern.  Each generation method is a function from the
current state to the produced value paired with the new state. -/

def MUL_CONSTANT : Nat := 0xda942042e4dd58b5

def DEFAULT_SEED : Nat := 0xfe1f873c7fc74fa65743b339f566f7bb

/-- `Lehmer64::advance`: `state = state.wrapping_mul(MUL_CONSTANT)`. -/
def advance (s : Nat) : Nat := s * MUL_CONSTANT % 2 ^ 128

/-- `Lehmer64::new`: a zero seed is replaced by `DEFAULT_SEED`, then the state
is advanced twice before the constructor returns. -/
def new (seed : Nat) : Nat :=
  advance (advance (if seed = 0 then DEFAULT_SEED else seed))

/-- `generic_generation_function` at `u64`: advance once, return the upper 64
bits of the state. -/
def generate_u64 (s : Nat) : Nat × Nat :=
  (advance s >>> 64, advance s)

/-- `generic_generation_function` at `u32`: advance once, return the upper 64
bits truncated to 32 bits (`as u32`). -/
def generate_u32 (s : Nat) : Nat × Nat :=
  ((advance s >>> 64) % 2 ^ 32, advance s)

/-- `generic_generation_function` at `i64`: the upper 64 bits reinterpreted as
a signed 64-bit value. -/
def generate_i64 (s : Nat) : Int × Nat :=
  (toInt 64 (advance s >>> 64), advance s)

/-- `Lehmer64::generate_u128`: advance, take the upper 64 bits as the high
word, advance again, take the upper 64 bits as the low word. -/
def generate_u128 (s : Nat) : Nat × Nat :=
  ((advance s >>> 64) <<< 64 ||| advance (advance s) >>> 64, advance (advance s))

/-- `Lehmer64::generate_i128`: the same two-step concatenation reinterpreted
as a signed 128-bit value (`as i128`). -/
def generate_i128 (s : Nat) : Int × Nat :=
  (toInt 128 ((advance s >>> 64) <<< 64 ||| advance (advance s) >>> 64),
    advance (advance s))

/-- Modelled from the spec: the constant `INV_2POW53` is referenced by
`generate_f64` through `crate::consts::double` but its definition is not part
of the sources; the spec fixes it as the scale factor `2 ^ -53`.  Floating
point values are modelled as exact rationals: every operation performed here
(converting an integer below `2 ^ 53` to double, scaling by a power of two)
is exact in IEEE double precision. -/
def INV_2POW53 : ℚ := 1 / 2 ^ 53

/-- Modelled from the spec: the constant `INV_2POW24`, the scale factor
`2 ^ -24` used by `generate_f32`, is likewise absent from the sources.  The
operations on values below `2 ^ 24` are exact in IEEE single precision. -/
def INV_2POW24 : ℚ := 1 / 2 ^ 24

/-- `Lehmer64::generate_f64`: `(self.generate_u64() >> 11) as f64 * INV_2POW53`. -/
def generate_f64 (s : Nat) : ℚ × Nat :=
  ((((generate_u64 s).1 >>> 11 : Nat) : ℚ) * INV_2POW53, (generate_u64 s).2)

/-- `Lehmer64::generate_f32`: `(self.generate_u32() >> 8) as f32 * INV_2POW24`. -/
def generate_f32 (s : Nat) : ℚ × Nat :=
  ((((generate_u32 s).1 >>> 8 : Nat) : ℚ) * INV_2POW24, (generate_u32 s).2)

/-! ### Generator state facts -/

theorem advance_lt (s : Nat) : advance s < 2 ^ 128 :=
  Nat.mod_lt _ (by norm_num)

theorem advance_ne_zero {s : Nat} (hs : s < 2 ^ 128) (h0 : s ≠ 0) :
    advance s ≠ 0 := by
  intro h
  have hdvd : 2 ^ 128 ∣ s * MUL_CONSTANT := Nat.dvd_of_mod_eq_zero h
  have hcop : Nat.Coprime (2 ^ 128) MUL_CONSTANT :=
    Nat.Coprime.pow_left _ (by decide)
  have hdvds : 2 ^ 128 ∣ s := hcop.dvd_of_dvd_mul_right hdvd
  exact h0 (Nat.eq_zero_of_dvd_of_lt hdvds hs)

theorem new_lt (seed : Nat) : new seed < 2 ^ 128 :=
  advance_lt _

theorem new_ne_zero {seed : Nat} (hseed : seed < 2 ^ 128) : new seed ≠ 0 := by
  unfold new
  have h0 : (if seed = 0 then DEFAULT_SEED else seed) ≠ 0 := by
    split
    · decide
    · assumption
  have hlt : (if seed = 0 then DEFAULT_SEED else seed) < 2 ^ 128 := by
    split
    · decide
    · assumption
  exact advance_ne_zero (advance_lt _) (advance_ne_zero hlt h0)

/-- C3: for every representable seed and any number of generator steps, the
128-bit state is never zero: the constructor replaces a zero seed by the
non-zero default, and the multiplicative transition with the odd constant
`MUL_CONSTANT` maps non-zero states to non-zero states. -/
theorem state_never_zero (seed : Nat) (hseed : seed < 2 ^ 128) (n : Nat) :
    advance^[n] (new seed) ≠ 0 := by
  induction n with
  | zero => exact new_ne_zero hseed
  | succ k ih =>
    rw [Function.iterate_succ_apply']
    have hlt : advance^[k] (new seed) < 2 ^ 128 := by
      cases k with
      | zero => exact new_lt seed
      | succ m =>
        rw [Function.iterate_succ_apply']
        exact advance_lt _
    exact advance_ne_zero hlt ih

/-- C3 witness. -/
theorem state_never_zero_witness : advance^[1] (new 0) ≠ 0 :=
  state_never_zero 0 (by norm_num) 1

/-- C5: construction replaces a zero seed by
`0xfe1f873c7fc74fa65743b339f566f7bb` and advances exactly twice, so the state
right after `new s` is `s * MUL_CONSTANT ^ 2 mod 2 ^ 128` for a non-zero seed
(and the default seed takes the place of `s` for seed zero). -/
theorem new_state_spec :
    new 0 = DEFAULT_SEED * MUL_CONSTANT ^ 2 % 2 ^ 128 ∧
    ∀ s, s ≠ 0 → s < 2 ^ 128 → new s = s * MUL_CONSTANT ^ 2 % 2 ^ 128 := by
  have key : ∀ t : Nat, advance (advance t) = t * MUL_CONSTANT ^ 2 % 2 ^ 128 := by
    intro t
    unfold advance
    rw [Nat.mod_mul_mod, mul_assoc, ← pow_two]
  constructor
  · rw [new, if_pos rfl]
    exact key DEFAULT_SEED
  · intro s hs _
    rw [new, if_neg hs]
    exact key s

/-- C5 witness. -/
theorem new_state_spec_witness :
    new 1 = 1 * MUL_CONSTANT ^ 2 % 2 ^ 128 :=
  new_state_spec.2 1 (by norm_num) (by norm_num)

/-- C6: `Lehmer64::new(0)` deterministically produces
`0x064577751fa75998, 0x2fffbd97d5f2f80a, 0x9981098d9584ad55` as its first
three successive `generate_u64` outputs. -/
theorem new_zero_first_three :
    (generate_u64 (new 0)).1 = 0x064577751fa75998 ∧
    (generate_u64 ((generate_u64 (new 0)).2)).1 = 0x2fffbd97d5f2f80a ∧
    (generate_u64 ((generate_u64 ((generate_u64 (new 0)).2)).2)).1 =
      0x9981098d9584ad55 := by
  refine ⟨?_, ?_, ?_⟩ <;> rfl

/-- C10: `new 0` and `new DEFAULT_SEED` are two distinct seed arguments that
construct exactly the same internal state, hence the same output under every
sequence of generation calls — an observable seed collision. -/
theorem seed_collision :
    (0 : Nat) ≠ DEFAULT_SEED ∧ new 0 = new DEFAULT_SEED ∧
    ∀ n, advance^[n] (new 0) = advance^[n] (new DEFAULT_SEED) := by
  refine ⟨by decide, ?_, ?_⟩
  · rw [new, new, if_pos rfl, if_neg (by decide)]
  · intro n
    rw [new, new, if_pos rfl, if_neg (by decide)]

theorem toBits_toInt {w p : Nat} (hp : p < 2 ^ w) : toBits w (toInt w p) = p := by
  have hcast : ((2 ^ w : Nat) : Int) = (2 : Int) ^ w := by push_cast; ring
  have hplt : (p : Int) < ((2 ^ w : Nat) : Int) := by exact_mod_cast hp
  unfold toBits toInt
  split
  · rw [Int.emod_eq_of_lt (Int.ofNat_nonneg p) hplt]
    simp
  · rw [← hcast]
    have hsub : (p : Int) - ((2 ^ w : Nat) : Int) =
        (p : Int) + ((2 ^ w : Nat) : Int) * (-1) := by ring
    rw [hsub, Int.add_mul_emod_self_left,
      Int.emod_eq_of_lt (Int.ofNat_nonneg p) hplt]
    simp

theorem hi_lo_of_concat {h l : Nat} (hh : h < 2 ^ 64) (hl : l < 2 ^ 64) :
    (h <<< 64 ||| l) >>> 64 = h ∧ (h <<< 64 ||| l) % 2 ^ 64 = l ∧
    (h <<< 64 ||| l) < 2 ^ 128 := by
  have heq : h <<< 64 ||| l = 2 ^ 64 * h + l := by
    rw [Nat.shiftLeft_eq, Nat.mul_comm]
    exact (Nat.mul_add_lt_is_or hl h).symm
  rw [heq]
  refine ⟨?_, ?_, ?_⟩
  · rw [Nat.shiftRight_eq_div_pow, Nat.mul_add_div (by positivity),
      Nat.div_eq_of_lt hl]
    omega
  · rw [Nat.mul_add_mod]
    exact Nat.mod_eq_of_lt hl
  · calc 2 ^ 64 * h + l < 2 ^ 64 * h + 2 ^ 64 := by omega
    _ = 2 ^ 64 * (h + 1) := by ring
    _ ≤ 2 ^ 64 * 2 ^ 64 := Nat.mul_le_mul_left _ (by omega)
    _ = 2 ^ 128 := by norm_num

theorem upper_bits_lt (s : Nat) : advance s >>> 64 < 2 ^ 64 := by
  rw [Nat.shiftRight_eq_div_pow]
  apply Nat.div_lt_of_lt_mul
  calc advance s < 2 ^ 128 := advance_lt s
  _ = 2 ^ 64 * 2 ^ 64 := by norm_num

/-- C4: for every seed, a fresh generator's `generate_u128` output is the
concatenation `(a <<< 64) ||| b` of the first two `generate_u64` outputs of a
separately constructed generator with the same seed; and the high and low
halves of a fresh `generate_i128` output are the first two consecutive
`generate_i64` outputs. -/
theorem generate_128_consistency (seed : Nat) :
    (generate_u128 (new seed)).1 =
      ((generate_u64 (new seed)).1 <<< 64) |||
        (generate_u64 ((generate_u64 (new seed)).2)).1 ∧
    toInt 64 (toBits 128 (generate_i128 (new seed)).1 >>> 64) =
      (generate_i64 (new seed)).1 ∧
    toInt 64 (toBits 128 (generate_i128 (new seed)).1 % 2 ^ 64) =
      (generate_i64 ((generate_i64 (new seed)).2)).1 := by
  obtain ⟨e1, e2, e3⟩ :=
    hi_lo_of_concat (upper_bits_lt (new seed)) (upper_bits_lt (advance (new seed)))
  refine ⟨rfl, ?_, ?_⟩
  · show toInt 64 (toBits 128 (toInt 128 _) >>> 64) = _
    rw [toBits_toInt e3, e1]
    rfl
  · show toInt 64 (toBits 128 (toInt 128 _) % 2 ^ 64) = _
    rw [toBits_toInt e3, e2]
    rfl

/-- C9: every `generate_f64` value and every `generate_f32` value lies in
`[0, 1)`: the retained top 53 (resp. 24) bits of the raw output are below
`2 ^ 53` (resp. `2 ^ 24`), and the scale factor makes the product less than
one. -/
theorem generate_float_range (s : Nat) :
    (0 ≤ (generate_f64 s).1 ∧ (generate_f64 s).1 < 1) ∧
    (0 ≤ (generate_f32 s).1 ∧ (generate_f32 s).1 < 1) := by
  constructor
  · have h1 : (generate_u64 s).1 >>> 11 < 2 ^ 53 := by
      show advance s >>> 64 >>> 11 < 2 ^ 53
      rw [Nat.shiftRight_eq_div_pow]
      apply Nat.div_lt_of_lt_mul
      calc advance s >>> 64 < 2 ^ 64 := upper_bits_lt s
      _ = 2 ^ 53 * 2 ^ 11 := by norm_num
    constructor
    · show (0 : ℚ) ≤ _ * INV_2POW53
      rw [INV_2POW53]
      positivity
    · show (((generate_u64 s).1 >>> 11 : Nat) : ℚ) * INV_2POW53 < 1
      rw [INV_2POW53, mul_one_div, div_lt_one (by positivity)]
      exact_mod_cast h1
  · have h1 : (generate_u32 s).1 >>> 8 < 2 ^ 24 := by
      show ((advance s >>> 64) % 2 ^ 32) >>> 8 < 2 ^ 24
      rw [Nat.shiftRight_eq_div_pow]
      apply Nat.div_lt_of_lt_mul
      calc (advance s >>> 64) % 2 ^ 32 < 2 ^ 32 := Nat.mod_lt _ (by norm_num)
      _ = 2 ^ 24 * 2 ^ 8 := by norm_num
    constructor
    · show (0 : ℚ) ≤ _ * INV_2POW24
      rw [INV_2POW24]
      positivity
    · show (((generate_u32 s).1 >>> 8 : Nat) : ℚ) * INV_2POW24 < 1
      rw [INV_2POW24, mul_one_div, div_lt_one (by positivity)]
      exact_mod_cast h1

/-- C1 witness. -/
theorem int_sign_correct_witness :
    int_sign 8 0x80 = (if 0 ≤ toInt 8 0x80 then 1 else 2 ^ 8 - 1) ∧
    toInt 8 (int_sign 8 0x80) = (if 0 ≤ toInt 8 0x80 then 1 else -1) :=
  int_sign_correct 8 0x80 (by norm_num) (by norm_num)

/-- C7 witness. -/
theorem sign_comparison_correct_witness :
    (int_opposite_sign 8 0x80 0x7f = true ↔
      Xor' (toInt 8 0x80 < 0) (toInt 8 0x7f < 0)) ∧
    int_same_sign 8 0x80 0x7f = ! int_opposite_sign 8 0x80 0x7f :=
  sign_comparison_correct 8 0x80 0x7f (by norm_num) (by norm_num) (by norm_num)

/-- C2 witness. -/
theorem log2_floor_correct_witness :
    (∀ x, 0 < x → x < 2 ^ 64 → log2_floor 64 x = Nat.log2 x) ∧
    log2_floor 64 0 = 2 ^ 32 - 1 ∧
    (∀ k, 0 < k → k < 64 →
      log2_floor 64 (2 ^ k - 1) = k - 1 ∧
      log2_floor 64 (2 ^ k) = k ∧
      log2_floor 64 (2 ^ k + 1) = k) ∧
    log2_floor 64 1 = 0 ∧
    log2_floor 64 (2 ^ 64 - 1) = 64 - 1 :=
  log2_floor_correct 64 (by norm_num) (by norm_num)

/-! ### Integer capability trait, src/traits.rs

One record per implementing type, holding the associated constants produced by
the `impl_type_const` instantiation: `ZERO = 0`, `ONE = 1`, the native `BITS`,
`BITS_M_1 = BITS - 1`, `BITS_M_2 = BITS - 2`, the native `MAX` and `MIN`, and
`MSB = 1 << (BITS - 1)` evaluated in the type itself (so for signed types the
shift wraps to the most negative value).  Values are recorded as mathematical
integers; the platform-native width is modelled as 64 bits.
Field order: signed, BITS, ZERO, ONE, BITS_M_1, BITS_M_2, MAX, MIN, MSB. -/

structure BaseIntImpl where
  signed : Bool
  BITS : Nat
  ZERO : Int
  ONE : Int
  BITS_M_1 : Nat
  BITS_M_2 : Nat
  MAX : Int
  MIN : Int
  MSB : Int

def u8T : BaseIntImpl := ⟨false, 8, 0, 1, 8 - 1, 8 - 2, 2 ^ 8 - 1, 0, 2 ^ (8 - 1)⟩

def u16T : BaseIntImpl :=
  ⟨false, 16, 0, 1, 16 - 1, 16 - 2, 2 ^ 16 - 1, 0, 2 ^ (16 - 1)⟩

def u32T : BaseIntImpl :=
  ⟨false, 32, 0, 1, 32 - 1, 32 - 2, 2 ^ 32 - 1, 0, 2 ^ (32 - 1)⟩

def u64T : BaseIntImpl :=
  ⟨false, 64, 0, 1, 64 - 1, 64 - 2, 2 ^ 64 - 1, 0, 2 ^ (64 - 1)⟩

def u128T : BaseIntImpl :=
  ⟨false, 128, 0, 1, 128 - 1, 128 - 2, 2 ^ 128 - 1, 0, 2 ^ (128 - 1)⟩

def usizeT : BaseIntImpl :=
  ⟨false, 64, 0, 1, 64 - 1, 64 - 2, 2 ^ 64 - 1, 0, 2 ^ (64 - 1)⟩

def i8T : BaseIntImpl :=
  ⟨true, 8, 0, 1, 8 - 1, 8 - 2, 2 ^ (8 - 1) - 1, -(2 ^ (8 - 1)),
    toInt 8 (1 <<< (8 - 1))⟩

def i16T : BaseIntImpl :=
  ⟨true, 16, 0, 1, 16 - 1, 16 - 2, 2 ^ (16 - 1) - 1, -(2 ^ (16 - 1)),
    toInt 16 (1 <<< (16 - 1))⟩

def i32T : BaseIntImpl :=
  ⟨true, 32, 0, 1, 32 - 1, 32 - 2, 2 ^ (32 - 1) - 1, -(2 ^ (32 - 1)),
    toInt 32 (1 <<< (32 - 1))⟩

def i64T : BaseIntImpl :=
  ⟨true, 64, 0, 1, 64 - 1, 64 - 2, 2 ^ (64 - 1) - 1, -(2 ^ (64 - 1)),
    toInt 64 (1 <<< (64 - 1))⟩

def i128T : BaseIntImpl :=
  ⟨true, 128, 0, 1, 128 - 1, 128 - 2, 2 ^ (128 - 1) - 1, -(2 ^ (128 - 1)),
    toInt 128 (1 <<< (128 - 1))⟩

def isizeT : BaseIntImpl :=
  ⟨true, 64, 0, 1, 64 - 1, 64 - 2, 2 ^ (64 - 1) - 1, -(2 ^ (64 - 1)),
    toInt 64 (1 <<< (64 - 1))⟩

/-- Internal consistency of one implementing type's constants: `ZERO` and
`ONE` are the literals, the bit-width derived constants are `BITS - 1` and
`BITS - 2`, the bit pattern of `MSB` is exactly the single bit at position
`BITS - 1`, and `MAX`/`MIN` are the extreme values of the type. -/
def consistent (t : BaseIntImpl) : Prop :=
  t.ZERO = 0 ∧ t.ONE = 1 ∧
  t.BITS_M_1 = t.BITS - 1 ∧ t.BITS_M_2 = t.BITS - 2 ∧
  toBits t.BITS t.MSB = 2 ^ (t.BITS - 1) ∧
  t.MAX = (if t.signed then 2 ^ (t.BITS - 1) - 1 else 2 ^ t.BITS - 1) ∧
  t.MIN = (if t.signed then -((2 : Int) ^ (t.BITS - 1)) else 0)

/-- C8: all twelve trait instantiations have internally consistent constants,
and both rotations treat their shift amount modulo `BITS`. -/
theorem baseint_consistent :
    (consistent u8T ∧ consistent u16T ∧ consistent u32T ∧ consistent u64T ∧
      consistent u128T ∧ consistent usizeT ∧ consistent i8T ∧
      consistent i16T ∧ consistent i32T ∧ consistent i64T ∧
      consistent i128T ∧ consistent isizeT) ∧
    ∀ w x n : Nat, rotateRight w x n = rotateRight w x (n % w) ∧
      rotateLeft w x n = rotateLeft w x (n % w) := by
  constructor
  · refine ⟨?_, ?_, ?_, ?_, ?_, ?_, ?_, ?_, ?_, ?_, ?_, ?_⟩ <;>
      · unfold consistent
        decide
  · intro w x n
    refine ⟨?_, ?_⟩
    · unfold rotateRight
      rw [Nat.mod_mod_of_dvd n (dvd_refl w)]
    · unfold rotateLeft
      rw [Nat.mod_mod_of_dvd n (dvd_refl w)]

end Fastmath
